import Mathlib

/-!
Verification of the htmlincluder repository's directive-processing core.

Text is modelled as `List Char` (JavaScript strings over their code units).
The functions under `src/core.mjs` (`processClip`, `createFileObject`,
`hashFile`, `loadDependencies`, `processDirectory`, `processContent`,
`reset`) are embedded directly from the source.  The parts of the
repository that live in `parse.mjs` and `config.mjs` (the resolution
engine, the data resolver and the category registries) are not under
`src/`; they are modelled from the specification and marked as such in
their doc comments.
-/

namespace HtmlIncluder

/-- JavaScript whitespace test restricted to the ASCII range
(space, tab, line feed, carriage return, vertical tab, form feed). -/
def isWsChar (c : Char) : Bool :=
  c = ' ' || c = '\t' || c = '\n' || c = '\r' || c = Char.ofNat 11 || c = Char.ofNat 12

/-- Drop leading whitespace, as the `\s*` part of the clip marker regexes. -/
def dropWs : List Char → List Char
  | [] => []
  | c :: rest => if isWsChar c then dropWs rest else c :: rest

/-- JavaScript `String.prototype.trim` on a list of characters. -/
def trimChars (s : List Char) : List Char :=
  ((s.dropWhile isWsChar).reverse.dropWhile isWsChar).reverse

/-- Whether `pat` occurs as a contiguous substring of `s`
(JavaScript `indexOf(pat) > -1`). -/
def containsSub (pat : List Char) : List Char → Bool
  | [] => pat.isEmpty
  | c :: rest => pat.isPrefixOf (c :: rest) || containsSub pat rest

/-- The `-->` that closes every directive comment tag. -/
def arrowLit : List Char := ['-', '-', '>']

/-- Match the regex `kw\s*-->` at the start of `s`; on success return the
remainder of `s` after the match. -/
def matchMarker (kw s : List Char) : Option (List Char) :=
  if kw.isPrefixOf s then
    let r1 := dropWs (s.drop kw.length)
    if arrowLit.isPrefixOf r1 then some (r1.drop arrowLit.length) else none
  else none

/-- Split `s` at the first (leftmost) match of the marker regex `kw\s*-->`:
returns the text before the match and the text after it, or `none` when the
regex matches nowhere (a one-element JavaScript `split` result). -/
def splitFirstMarker (kw : List Char) : List Char → Option (List Char × List Char)
  | [] => none
  | c :: rest =>
    match matchMarker kw (c :: rest) with
    | some r2 => some ([], r2)
    | none =>
      match splitFirstMarker kw rest with
      | some pr => some (c :: pr.1, pr.2)
      | none => none

/-- Split `s` at the first occurrence of the literal `pat`
(JavaScript `split` with a plain-string separator, first separator only). -/
def splitFirstLit (pat : List Char) : List Char → Option (List Char × List Char)
  | [] => none
  | c :: rest =>
    if pat.isPrefixOf (c :: rest) then some ([], (c :: rest).drop pat.length)
    else
      match splitFirstLit pat rest with
      | some pr => some (c :: pr.1, pr.2)
      | none => none

/-- The part of `s` before the first occurrence of the literal `pat`
(`s.split(pat)[0]`): all of `s` when `pat` does not occur. -/
def beforeFirstLit (pat s : List Char) : List Char :=
  match splitFirstLit pat s with
  | some pr => pr.1
  | none => s

/-- `true` when no match of the marker regex `kw\s*-->` starts inside `a`
when `a` is followed by the continuation `r`. -/
def noMarkerStartB (kw r : List Char) : List Char → Bool
  | [] => true
  | c :: a => (matchMarker kw ((c :: a) ++ r)).isNone && noMarkerStartB kw r a

/-- `true` when no occurrence of the literal `pat` starts inside `a`
when `a` is followed by the continuation `r`. -/
def noLitStartB (pat r : List Char) : List Char → Bool
  | [] => true
  | c :: a => (!(pat.isPrefixOf ((c :: a) ++ r))) && noLitStartB pat r a

/-- Keyword of the `ClipBefore` marker. -/
def cbKw : List Char := "<!--#clipbefore".toList

/-- Literal the clip-before branch splits its tail on (the closing `-->` is
not required by the source, which splits on this bare literal). -/
def caKw : List Char := "<!--#clipafter".toList

/-- Keyword of the `ClipBetween` marker. -/
def cwKw : List Char := "<!--#clipbetween".toList

/-- Keyword of the `EndClipBetween` marker. -/
def ecwKw : List Char := "<!--#endclipbetween".toList

/-- Canonical full `ClipBefore` marker `<!--#clipbefore-->`. -/
def mkcb : List Char := cbKw ++ arrowLit

/-- Canonical full `ClipBetween` marker `<!--#clipbetween-->`. -/
def mkcw : List Char := cwKw ++ arrowLit

/-- Canonical full `EndClipBetween` marker `<!--#endclipbetween-->`. -/
def mkecw : List Char := ecwKw ++ arrowLit

/-- The text JavaScript produces when `undefined` is coerced into a string
concatenation. -/
def undefinedLit : List Char := "undefined".toList

/-- The clip-before/clip-after branch of `processClip` (src/core.mjs):
`content.split(/<!--#clipbefore\s*-->/).splice(1)[0].split('<!--#clipafter').splice(0,1)[0]`.
`none` models the `TypeError` thrown when `indexOf` finds the keyword but
the marker regex matches nowhere (`splice(1)[0]` is then `undefined` and
`.split` throws). -/
def clipBeforeAfter (s : List Char) : Option (List Char) :=
  if containsSub cbKw s then
    match splitFirstMarker cbKw s with
    | none => none
    | some pr =>
      let part1 :=
        match splitFirstMarker cbKw pr.2 with
        | some pr2 => pr2.1
        | none => pr.2
      some (beforeFirstLit caKw part1)
  else some s

/-- The clip-between branch of `processClip` (src/core.mjs):
`tmp = content.split(/<!--#clipbetween\s*-->/); content = tmp[0] + tmp[1].split(/<!--#endclipbetween\s*-->/)[1]`.
When the end marker regex matches nowhere, index `[1]` is `undefined` and
JavaScript string concatenation appends the text `undefined`.  `none`
models the `TypeError` thrown when `tmp[1]` itself is `undefined`. -/
def clipBetween (s : List Char) : Option (List Char) :=
  if containsSub cwKw s then
    match splitFirstMarker cwKw s with
    | none => none
    | some pr =>
      let tmp1 :=
        match splitFirstMarker cwKw pr.2 with
        | some pr2 => pr2.1
        | none => pr.2
      match splitFirstMarker ecwKw tmp1 with
      | none => some (pr.1 ++ undefinedLit)
      | some q =>
        let seg1 :=
          match splitFirstMarker ecwKw q.2 with
          | some q2 => q2.1
          | none => q.2
        some (pr.1 ++ seg1)
  else some s

/-- `processClip` from src/core.mjs: the clip-before branch runs first and
the clip-between branch runs on its output. -/
def processClip (s : List Char) : Option (List Char) :=
  match clipBeforeAfter s with
  | some s1 => clipBetween s1
  | none => none

/-- A file record as built by `createFileObject` in src/core.mjs (the
`processed` flag and the vinyl-style `file` buffer are carried only for the
gulp plugin and are omitted). -/
structure FileObj where
  path : List Char
  name : List Char
  content : List Char
deriving DecidableEq

/-- `path.basename` for forward-slash paths: the text after the last `/`. -/
def baseName (p : List Char) : List Char :=
  p.foldl (fun acc c => if c = '/' then [] else acc ++ [c]) []

/-- `createFileObject` from src/core.mjs: the stored content is the trimmed
input content (`content.trim()`), the name is the base filename. -/
def createFileObject (filePath content : List Char) : FileObj :=
  { path := filePath, name := baseName filePath, content := trimChars content }

/-- Whether a base filename carries the insert marker `-` or the wrap
marker `_` (JavaScript `startsWith`). -/
def startsWithMarker (n : List Char) : Bool :=
  n.head? = some '-' || n.head? = some '_'

/-- The three category partitions held by config.mjs: the page list and the
insert/wrap collections keyed by path. -/
structure RegState where
  pageFiles : List FileObj
  insertFiles : List (List Char × FileObj)
  wrapFiles : List (List Char × FileObj)
deriving DecidableEq

/-- The partitions of a fresh build. -/
def emptyState : RegState := ⟨[], [], []⟩

/-- Insert a keyed record, overwriting an existing record with the same
key. -/
def upsertA (k : List Char) (v : FileObj) : List (List Char × FileObj) → List (List Char × FileObj)
  | [] => [(k, v)]
  | kv :: rest => if kv.1 = k then (k, v) :: rest else kv :: upsertA k v rest

/-- Modelled from the spec: `configureFiles` lives in config.mjs, which is
not under src/.  Per §3 of the spec (and the repository's own docs), a name
starting with the insert marker `-` is filed under the insert partition, a
name starting with the wrap marker `_` under the wrap partition, keyed by
path, and everything else is appended to the page list. -/
def configureFiles (f : FileObj) (st : RegState) : RegState :=
  if f.name.head? = some '-' then
    { st with insertFiles := upsertA f.path f st.insertFiles }
  else if f.name.head? = some '_' then
    { st with wrapFiles := upsertA f.path f st.wrapFiles }
  else
    { st with pageFiles := st.pageFiles ++ [f] }

/-- `hashFile` from src/core.mjs: clip processing runs first, then the
record is categorized.  `none` propagates a `processClip` crash. -/
def hashFile (f : FileObj) (st : RegState) : Option RegState :=
  match processClip f.content with
  | some c => some (configureFiles { f with content := c } st)
  | none => none

/-- The hashing loop of `processDirectory` in src/core.mjs: each discovered
file (path and raw text) is turned into a file object and hashed. -/
def registerFiles : List (List Char × List Char) → RegState → Option RegState
  | [], st => some st
  | (p, c) :: rest, st =>
    match hashFile (createFileObject p c) st with
    | some st1 => registerFiles rest st1
    | none => none

/-- `loadDependencies` from src/core.mjs, applied to the list of discovered
files: only files whose base filename starts with `-` or `_` are hashed. -/
def loadDependencies : List (List Char × List Char) → RegState → Option RegState
  | [], st => some st
  | (p, c) :: rest, st =>
    if startsWithMarker (baseName p) then
      match hashFile (createFileObject p c) st with
      | some st1 => loadDependencies rest st1
      | none => none
    else loadDependencies rest st

/-- `reset` from src/core.mjs: empties the page list and deletes every key
of the insert and wrap collections. -/
def reset (_st : RegState) : RegState := ⟨[], [], []⟩

/-- Every record visible in some partition of the registry. -/
def allRecords (st : RegState) : List FileObj :=
  st.pageFiles ++ st.insertFiles.map (fun kv => kv.2) ++ st.wrapFiles.map (fun kv => kv.2)

/-- JSON-shaped data trees, as supplied through `options.jsonInput`.
Strings and keys are lists of characters like all other text here. -/
inductive Json where
  | null : Json
  | bool (b : Bool) : Json
  | num (n : Int) : Json
  | str (s : List Char) : Json
  | arr (elems : List Json) : Json
  | obj (fields : List (List Char × Json)) : Json

/-- Split a dotted path on `.` (JavaScript `split('.')`). -/
def splitDots : List Char → List (List Char)
  | [] => [[]]
  | c :: rest =>
    if c = '.' then [] :: splitDots rest
    else
      match splitDots rest with
      | seg :: segs => (c :: seg) :: segs
      | [] => [[c]]

/-- A path segment made only of decimal digits, read as an index. -/
def toNatSeg (s : List Char) : Option Nat :=
  if s ≠ [] && s.all (fun c => c.isDigit) then
    some (s.foldl (fun acc c => acc * 10 + (c.toNat - 48)) 0)
  else none

/-- Association lookup among object fields. -/
def lookupField (fields : List (List Char × Json)) (k : List Char) : Option Json :=
  match fields with
  | [] => none
  | kv :: rest => if kv.1 = k then some kv.2 else lookupField rest k

/-- Modelled from the spec: the data resolver of §4.3 lives in parse.mjs,
which is not under src/.  One descent step: object-key match for string
segments, index access for numeric segments on arrays. -/
def lookupSeg (j : Json) (seg : List Char) : Option Json :=
  match j with
  | Json.obj fields => lookupField fields seg
  | Json.arr elems =>
    match toNatSeg seg with
    | some i => elems.get? i
    | none => none
  | _ => none

/-- Modelled from the spec: descend the tree one segment at a time;
`none` records that some segment was absent or out of range. -/
def resolveSegs : Json → List (List Char) → Option Json
  | j, [] => some j
  | j, seg :: rest =>
    match lookupSeg j seg with
    | some j1 => resolveSegs j1 rest
    | none => none

/-- Modelled from the spec: `resolve(dataTree, dottedPath, defaultValue)`
of §4.3.  A missing path yields the default value, or the empty string
when no default is given; the function is total, so no lookup ever raises
an error. -/
def resolve (tree : Json) (path : List Char) (dflt : Option Json) : Json :=
  match resolveSegs tree (splitDots path) with
  | some v => v
  | none =>
    match dflt with
    | some d => d
    | none => Json.str []

/-- Textual form of a resolved scalar, spliced in place of a data
directive (non-scalar values are not exercised by any claim and render
empty here). -/
def jsonToText : Json → List Char
  | Json.str s => s
  | Json.num n => (toString n).toList
  | Json.bool b => if b then "true".toList else "false".toList
  | Json.null => []
  | Json.arr _ => []
  | Json.obj _ => []

/-- The reserved opener every directive comment tag begins with (§6 of the
spec: a comment-delimited tag beginning with a reserved marker). -/
def opener : List Char := "<!--#".toList

/-- Match a literal at the start of `s`; on success return the rest. -/
def matchLit (pat s : List Char) : Option (List Char) :=
  if pat.isPrefixOf s then some (s.drop pat.length) else none

/-- Require at least one whitespace character, then skip the run. -/
def skipWs1 (s : List Char) : Option (List Char) :=
  match s with
  | c :: rest => if isWsChar c then some (dropWs rest) else none
  | [] => none

/-- Read up to the next `"`; returns the text before it and the rest. -/
def readUntilQuote : List Char → Option (List Char × List Char)
  | [] => none
  | c :: rest =>
    if c = '"' then some ([], rest)
    else
      match readUntilQuote rest with
      | some pr => some (c :: pr.1, pr.2)
      | none => none

/-- Registry view the engine reads: fragment path to fragment content. -/
def insertContents (st : RegState) : List (List Char × List Char) :=
  st.insertFiles.map (fun kv => (kv.1, kv.2.content))

/-- Association lookup in a path-to-content registry view. -/
def lookupA (reg : List (List Char × List Char)) (k : List Char) : Option (List Char) :=
  match reg with
  | [] => none
  | kv :: rest => if kv.1 = k then some kv.2 else lookupA rest k

/-- Modelled from the spec: the directive scanner of §4.1 lives in
parse.mjs, which is not under src/.  Parse an Insert tag
`<!--#insert path="P" -->` at the start of `s`; the substitution is the
registered fragment content, or empty on a missing fragment (§7). -/
def parseInsertTag (reg : List (List Char × List Char)) (s : List Char) :
    Option (List Char × List Char) :=
  match matchLit opener s with
  | none => none
  | some s1 =>
    match matchLit (("insert").toList) s1 with
    | none => none
    | some s2 =>
      match skipWs1 s2 with
      | none => none
      | some s3 =>
        match matchLit (("path=").toList) s3 with
        | none => none
        | some s4 =>
          match matchLit (['"']) s4 with
          | none => none
          | some s5 =>
            match readUntilQuote s5 with
            | none => none
            | some pv =>
              match matchLit arrowLit (dropWs pv.2) with
              | none => none
              | some s7 => some ((lookupA reg pv.1).getD [], s7)

/-- Modelled from the spec: parse a Data / JsonInsert tag
`<!--#data jsonPath="P" -->` (or the `jsonInsert` keyword) at the start of
`s`; the substitution is the data resolver's result stringified (§4.6).
The optional `default` attribute is not modelled. -/
def parseDataTag (tree : Json) (s : List Char) : Option (List Char × List Char) :=
  match matchLit opener s with
  | none => none
  | some s1 =>
    let kwRest :=
      match matchLit (("jsonInsert").toList) s1 with
      | some r => some r
      | none => matchLit (("data").toList) s1
    match kwRest with
    | none => none
    | some s2 =>
      match skipWs1 s2 with
      | none => none
      | some s3 =>
        match matchLit (("jsonPath=").toList) s3 with
        | none => none
        | some s4 =>
          match matchLit (['"']) s4 with
          | none => none
          | some s5 =>
            match readUntilQuote s5 with
            | none => none
            | some pv =>
              match matchLit arrowLit (dropWs pv.2) with
              | none => none
              | some s7 => some (jsonToText (resolve tree pv.1 none), s7)

/-- A recognized directive at the start of `s`: its substitution text and
the remainder of `s` after the tag. -/
def parseDirective (reg : List (List Char × List Char)) (tree : Json) (s : List Char) :
    Option (List Char × List Char) :=
  match parseInsertTag reg s with
  | some r => some r
  | none => parseDataTag tree s

/-- Whether a recognized directive tag starts anywhere in `s` (step 1 of
§4.6: scan the current text for directives). -/
def hasTag (reg : List (List Char × List Char)) (tree : Json) : List Char → Bool
  | [] => false
  | c :: rest => (parseDirective reg tree (c :: rest)).isSome || hasTag reg tree rest

/-- Fuelled left-to-right substitution sweep: each step consumes at least
one character, so fuel equal to the text length never runs out. -/
def passSubFuel (reg : List (List Char × List Char)) (tree : Json) :
    Nat → List Char → List Char
  | 0, s => s
  | Nat.succ _, [] => []
  | Nat.succ n, c :: rest =>
    match parseDirective reg tree (c :: rest) with
    | some pr =>
      pr.1 ++ passSubFuel reg tree n ((c :: rest).drop (max ((c :: rest).length - pr.2.length) 1))
    | none => c :: passSubFuel reg tree n rest

/-- Modelled from the spec: one substitution pass of §4.6 — every
recognized directive, left to right, is replaced by its substitution; the
spliced text is not rescanned within the pass. -/
def passSub (reg : List (List Char × List Char)) (tree : Json) (s : List Char) : List Char :=
  passSubFuel reg tree s.length s

/-- Modelled from the spec: the fixed-point loop of §4.6 with an iteration
cap.  Returns the final text, the number of passes performed and whether
the cap was reached while directives still remained (the
`UnresolvedDirective` condition). -/
def runEngine (reg : List (List Char × List Char)) (tree : Json) :
    Nat → List Char → List Char × Nat × Bool
  | 0, s => (s, 0, hasTag reg tree s)
  | Nat.succ n, s =>
    if hasTag reg tree s then
      let r := runEngine reg tree n (passSub reg tree s)
      (r.1, r.2.1 + 1, r.2.2)
    else (s, 0, false)

/-- `processContent` from src/core.mjs: builds a virtual file object from
the content (which trims it) and hands it to the resolution engine; the
processed text is returned. -/
def processContent (content basePath : List Char) (st : RegState) (tree : Json)
    (limit : Nat) : List Char :=
  let f := createFileObject (basePath ++ ('/' :: "virtual-file.html".toList)) content
  (runEngine (insertContents st) tree limit f.content).1

/-- An entry of the result array returned by `processDirectory`. -/
structure PageResult where
  path : List Char
  name : List Char
  content : List Char
deriving DecidableEq

/-- A destination write performed by `processDirectory`: the page file it
came from, the destination path, and the written content. -/
structure WriteRec where
  src : List Char
  dest : List Char
  content : List Char
deriving DecidableEq

/-- `path.relative(srcDir, p)` for the plain case where `p` lies under
`srcDir`. -/
def relPath (srcDir p : List Char) : List Char :=
  if srcDir.isPrefixOf p then p.drop srcDir.length else p

/-- `processDirectory` from src/core.mjs: hash every discovered file into
the partitions, then process only the page partition, collecting a result
entry per page file and, when a destination directory is given, a write of
the processed content per page file. -/
def processDirectory (srcDir : List Char) (destDir : Option (List Char))
    (files : List (List Char × List Char)) (tree : Json) (limit : Nat)
    (st0 : RegState) : Option (List PageResult × List WriteRec) :=
  match registerFiles files st0 with
  | none => none
  | some st =>
    let results := st.pageFiles.map (fun f =>
      { path := f.path, name := f.name
        content := (runEngine (insertContents st) tree limit f.content).1 : PageResult })
    let writes :=
      match destDir with
      | some d => st.pageFiles.map (fun f =>
          { src := f.path, dest := d ++ ('/' :: relPath srcDir f.path)
            content := (runEngine (insertContents st) tree limit f.content).1 : WriteRec })
      | none => []
    some (results, writes)

/-- The text of an Insert directive tag for fragment path `p`. -/
def tagInsert (p : List Char) : List Char :=
  opener ++ ("insert".toList) ++ [' '] ++ ("path=".toList) ++ ['"'] ++ p ++ ['"', ' '] ++ arrowLit

/-- Registry of two fragments that insert each other: `A` inserts `B` and
`B` inserts `A`. -/
def cycleReg : List (List Char × List Char) :=
  [(['A'], tagInsert ['B']), (['B'], tagInsert ['A'])]

/-- The content of cyclic fragment `A` (a single insert of `B`). -/
def cycleTextA : List Char := tagInsert ['B']

/-- The content of cyclic fragment `B` (a single insert of `A`). -/
def cycleTextB : List Char := tagInsert ['A']

/-- Invariant of the page partition: every page record's name is the base
filename of its path and carries no insert/wrap marker. -/
def pageInv (st : RegState) : Prop :=
  ∀ f ∈ st.pageFiles, f.name = baseName f.path ∧ startsWithMarker f.name = false

/-- Concrete discovered-file list exercising clip processing at
registration (one insert fragment carrying a bracketing clip). -/
def regDemoFiles : List (List Char × List Char) :=
  [(("d/-frag.html").toList, ("QQ<!--#clipbefore-->IN<!--#clipafter-->ZZ").toList)]

/-- The registry state obtained from registering `regDemoFiles`. -/
def regDemoSt : RegState :=
  (registerFiles regDemoFiles emptyState).getD emptyState

/-- Concrete discovered-file list with one page file and one insert
fragment, exercising `processDirectory`. -/
def dirDemoFiles : List (List Char × List Char) :=
  [(("s/x.html").toList, ("hi").toList), (("s/-f.html").toList, ("frag").toList)]

/-- The results and writes of `processDirectory` on `dirDemoFiles`. -/
def dirDemoRes : List PageResult × List WriteRec :=
  (processDirectory (("s").toList) (some (("d").toList)) dirDemoFiles Json.null 3 emptyState).getD
    ([], [])

/-- A one-field concrete data tree for the resolver. -/
def demoTree : Json := Json.obj [(['a'], Json.num 1)]

theorem isPrefixOf_append_self : ∀ (p t : List Char), p.isPrefixOf (p ++ t) = true
  | [], t => by cases t <;> rfl
  | c :: p, t => by
    rw [List.cons_append]
    show ((c == c) && p.isPrefixOf (p ++ t)) = true
    rw [isPrefixOf_append_self p t, beq_self_eq_true, Bool.true_and]

theorem drop_append_self : ∀ (p t : List Char), (p ++ t).drop p.length = t
  | [], _ => rfl
  | c :: p, t => by
    rw [List.cons_append, List.length_cons, List.drop_succ_cons]
    exact drop_append_self p t

theorem containsSub_middle (p0 : Char) (ps : List Char) :
    ∀ (u v : List Char), containsSub (p0 :: ps) (u ++ ((p0 :: ps) ++ v)) = true
  | [], v => by
    rw [List.nil_append, List.cons_append]
    show (((p0 :: ps).isPrefixOf (p0 :: (ps ++ v))) || containsSub (p0 :: ps) (ps ++ v)) = true
    rw [← List.cons_append, isPrefixOf_append_self, Bool.true_or]
  | c :: u, v => by
    rw [List.cons_append]
    show (((p0 :: ps).isPrefixOf (c :: (u ++ ((p0 :: ps) ++ v)))) ||
      containsSub (p0 :: ps) (u ++ ((p0 :: ps) ++ v))) = true
    rw [containsSub_middle p0 ps u v, Bool.or_true]

theorem not_contains_cons (pat : List Char) (c : Char) (rest : List Char)
    (h : containsSub pat (c :: rest) = false) :
    pat.isPrefixOf (c :: rest) = false ∧ containsSub pat rest = false := by
  simpa [containsSub] using h

theorem isPrefixOf_false_of_not_contains (pat s : List Char)
    (h : containsSub pat s = false) : pat.isPrefixOf s = false := by
  cases s with
  | nil =>
    cases pat with
    | nil => simp [containsSub] at h
    | cons _ _ => rfl
  | cons c rest => exact (not_contains_cons pat c rest h).1

theorem matchMarker_append_self (kw t : List Char) :
    matchMarker kw (kw ++ (arrowLit ++ t)) = some t := by
  unfold matchMarker
  rw [isPrefixOf_append_self]
  simp only [if_true]
  rw [drop_append_self]
  have hd : isWsChar '-' = false := rfl
  have hws : dropWs (arrowLit ++ t) = arrowLit ++ t := by
    show (if isWsChar '-' then dropWs (('-' :: '>' :: []) ++ t)
      else '-' :: (('-' :: '>' :: []) ++ t)) = arrowLit ++ t
    rw [hd]
    rfl
  rw [hws, isPrefixOf_append_self]
  simp only [if_true]
  rw [drop_append_self]

theorem splitFirstMarker_append_self (k0 : Char) (ks t : List Char) :
    splitFirstMarker (k0 :: ks) ((k0 :: ks) ++ (arrowLit ++ t)) = some ([], t) := by
  have hm := matchMarker_append_self (k0 :: ks) t
  rw [List.cons_append] at hm ⊢
  simp only [splitFirstMarker, hm]

theorem splitFirstLit_append_self (p0 : Char) (ps t : List Char) :
    splitFirstLit (p0 :: ps) ((p0 :: ps) ++ t) = some ([], t) := by
  rw [List.cons_append]
  simp only [splitFirstLit]
  rw [← List.cons_append, isPrefixOf_append_self]
  simp only [if_true]
  rw [drop_append_self]

theorem splitFirstMarker_append (kw r : List Char) (a : List Char)
    (h : noMarkerStartB kw r a = true) :
    splitFirstMarker kw (a ++ r) =
      match splitFirstMarker kw r with
      | some pr => some (a ++ pr.1, pr.2)
      | none => none := by
  induction a with
  | nil =>
    cases hr : splitFirstMarker kw r <;> simp [hr]
  | cons c a ih =>
    simp only [noMarkerStartB, Bool.and_eq_true, Option.isNone_iff_eq_none] at h
    obtain ⟨hm, h2⟩ := h
    rw [List.cons_append] at hm
    rw [List.cons_append]
    simp only [splitFirstMarker, hm]
    rw [ih h2]
    cases hr : splitFirstMarker kw r <;> simp [hr]

theorem splitFirstLit_append (pat r : List Char) (a : List Char)
    (h : noLitStartB pat r a = true) :
    splitFirstLit pat (a ++ r) =
      match splitFirstLit pat r with
      | some pr => some (a ++ pr.1, pr.2)
      | none => none := by
  induction a with
  | nil =>
    cases hr : splitFirstLit pat r <;> simp [hr]
  | cons c a ih =>
    simp only [noLitStartB, Bool.and_eq_true, Bool.not_eq_true'] at h
    obtain ⟨hm, h2⟩ := h
    rw [List.cons_append] at hm
    rw [List.cons_append]
    simp only [splitFirstLit, hm, Bool.false_eq_true, if_false]
    rw [ih h2]
    cases hr : splitFirstLit pat r <;> simp [hr]

theorem containsSub_middle' (pat : List Char) (hne : pat ≠ []) (u v : List Char) :
    containsSub pat (u ++ (pat ++ v)) = true := by
  obtain ⟨p0, ps, rfl⟩ := List.exists_cons_of_ne_nil hne
  exact containsSub_middle p0 ps u v

theorem splitFirstMarker_append_self' (kw t : List Char) (hne : kw ≠ []) :
    splitFirstMarker kw (kw ++ (arrowLit ++ t)) = some ([], t) := by
  obtain ⟨k0, ks, rfl⟩ := List.exists_cons_of_ne_nil hne
  exact splitFirstMarker_append_self k0 ks t

theorem splitFirstLit_append_self' (pat t : List Char) (hne : pat ≠ []) :
    splitFirstLit pat (pat ++ t) = some ([], t) := by
  obtain ⟨p0, ps, rfl⟩ := List.exists_cons_of_ne_nil hne
  exact splitFirstLit_append_self p0 ps t

/-- C2 (amended): when the interior of the first `ClipBefore` span holds
no further `ClipBefore` marker and no `ClipBetween` keyword — and no
`ClipBefore` marker follows the span either — clip processing stores
exactly the text strictly between the first `ClipBefore` marker and the
following `ClipAfter` keyword.  `hA` says the displayed marker is the
first one, `hB` that no further `ClipBefore` marker follows it, `hC` that
the displayed `ClipAfter` is the first one after the marker, and `hD` that
the interior triggers no excision clip. -/
theorem clipBefore_stores_interior (a b c : List Char)
    (hA : noMarkerStartB cbKw (mkcb ++ (b ++ (caKw ++ c))) a = true)
    (hB : splitFirstMarker cbKw (b ++ (caKw ++ c)) = none)
    (hC : noLitStartB caKw (caKw ++ c) b = true)
    (hD : containsSub cwKw b = false) :
    processClip (a ++ (mkcb ++ (b ++ (caKw ++ c)))) = some b := by
  have hshape : a ++ (mkcb ++ (b ++ (caKw ++ c))) =
      a ++ (cbKw ++ (arrowLit ++ (b ++ (caKw ++ c)))) := by
    rw [mkcb, List.append_assoc]
  have hguard : containsSub cbKw (a ++ (mkcb ++ (b ++ (caKw ++ c)))) = true := by
    rw [hshape]
    exact containsSub_middle' cbKw (by decide) a _
  have hsp : splitFirstMarker cbKw (a ++ (mkcb ++ (b ++ (caKw ++ c)))) =
      some (a, b ++ (caKw ++ c)) := by
    rw [splitFirstMarker_append cbKw _ a hA]
    have hin : splitFirstMarker cbKw (mkcb ++ (b ++ (caKw ++ c))) =
        some ([], b ++ (caKw ++ c)) := by
      rw [mkcb, List.append_assoc]
      exact splitFirstMarker_append_self' cbKw _ (by decide)
    rw [hin]
    simp
  have hbf : beforeFirstLit caKw (b ++ (caKw ++ c)) = b := by
    unfold beforeFirstLit
    rw [splitFirstLit_append caKw _ b hC]
    rw [splitFirstLit_append_self' caKw c (by decide)]
    simp
  have h1 : clipBeforeAfter (a ++ (mkcb ++ (b ++ (caKw ++ c)))) = some b := by
    unfold clipBeforeAfter
    rw [hguard, hsp]
    simp [hB, hbf]
  unfold processClip
  rw [h1]
  simp [clipBetween, hD]

/-- C2 counterexample: a second `ClipBefore` marker inside the span.  The
text strictly between the first `ClipBefore` marker and the following
`ClipAfter` is `A<!--#clipbefore-->B`, but the source stores only `A` (the
second regex split cuts at the second marker), so the claim fails here. -/
theorem clipBefore_interior_cex :
    processClip (("X<!--#clipbefore-->A<!--#clipbefore-->B<!--#clipafter-->Y").toList) =
      some (("A").toList) ∧
    processClip (("X<!--#clipbefore-->A<!--#clipbefore-->B<!--#clipafter-->Y").toList) ≠
      some (("A<!--#clipbefore-->B").toList) := by
  constructor
  · decide
  · decide

/-- Witness for C2 at a concrete input. -/
theorem clipBefore_stores_interior_w :
    noMarkerStartB cbKw (mkcb ++ (("B").toList ++ (caKw ++ ("C").toList))) (("A").toList) = true ∧
    splitFirstMarker cbKw (("B").toList ++ (caKw ++ ("C").toList)) = none ∧
    noLitStartB caKw (caKw ++ ("C").toList) (("B").toList) = true ∧
    containsSub cwKw (("B").toList) = false ∧
    processClip (("A").toList ++ (mkcb ++ (("B").toList ++ (caKw ++ ("C").toList)))) =
      some (("B").toList) :=
  ⟨by decide, by decide, by decide, by decide,
    clipBefore_stores_interior (("A").toList) (("B").toList) (("C").toList)
      (by decide) (by decide) (by decide) (by decide)⟩

/-- C3 (amended): when the content holds no `ClipBefore` keyword and no
clip-between markers beyond the one displayed span, clip processing
removes exactly the interior of the span (markers included) and keeps all
content before the `ClipBetween` marker and all content after the
`EndClipBetween` marker.  `h0` keeps the bracketing branch inactive, `hA`
says the displayed `ClipBetween` marker is the first one, `hB` that no
further `ClipBetween` marker follows it, `hC` that the displayed
`EndClipBetween` marker is the first one after it, and `hD` that no
further `EndClipBetween` marker occurs in the tail. -/
theorem clipBetween_excision (a b c : List Char)
    (h0 : containsSub cbKw (a ++ (mkcw ++ (b ++ (mkecw ++ c)))) = false)
    (hA : noMarkerStartB cwKw (mkcw ++ (b ++ (mkecw ++ c))) a = true)
    (hB : splitFirstMarker cwKw (b ++ (mkecw ++ c)) = none)
    (hC : noMarkerStartB ecwKw (mkecw ++ c) b = true)
    (hD : splitFirstMarker ecwKw c = none) :
    processClip (a ++ (mkcw ++ (b ++ (mkecw ++ c)))) = some (a ++ c) := by
  have hguard : containsSub cwKw (a ++ (mkcw ++ (b ++ (mkecw ++ c)))) = true := by
    have hshape : a ++ (mkcw ++ (b ++ (mkecw ++ c))) =
        a ++ (cwKw ++ (arrowLit ++ (b ++ (mkecw ++ c)))) := by
      rw [mkcw, List.append_assoc]
    rw [hshape]
    exact containsSub_middle' cwKw (by decide) a _
  have hsp : splitFirstMarker cwKw (a ++ (mkcw ++ (b ++ (mkecw ++ c)))) =
      some (a, b ++ (mkecw ++ c)) := by
    rw [splitFirstMarker_append cwKw _ a hA]
    have hin : splitFirstMarker cwKw (mkcw ++ (b ++ (mkecw ++ c))) =
        some ([], b ++ (mkecw ++ c)) := by
      rw [mkcw, List.append_assoc]
      exact splitFirstMarker_append_self' cwKw _ (by decide)
    rw [hin]
    simp
  have hend : splitFirstMarker ecwKw (b ++ (mkecw ++ c)) = some (b, c) := by
    rw [splitFirstMarker_append ecwKw _ b hC]
    have hin : splitFirstMarker ecwKw (mkecw ++ c) = some ([], c) := by
      rw [mkecw, List.append_assoc]
      exact splitFirstMarker_append_self' ecwKw _ (by decide)
    rw [hin]
    simp
  have h1 : clipBeforeAfter (a ++ (mkcw ++ (b ++ (mkecw ++ c)))) =
      some (a ++ (mkcw ++ (b ++ (mkecw ++ c)))) := by
    unfold clipBeforeAfter
    rw [h0]
    simp
  have h2 : clipBetween (a ++ (mkcw ++ (b ++ (mkecw ++ c)))) = some (a ++ c) := by
    unfold clipBetween
    rw [hguard, hsp]
    simp [hB, hend, hD]
  unfold processClip
  rw [h1]
  simp [h2]

/-- C3 counterexample: a second `EndClipBetween` marker after the span.
The claim keeps everything after the first `EndClipBetween` marker
(`C1<!--#endclipbetween-->C2`), but the source keeps only the segment up
to the second `EndClipBetween` marker (`C1`), so the claim fails here. -/
theorem clipBetween_excision_cex :
    processClip
        (("A<!--#clipbetween-->B<!--#endclipbetween-->C1<!--#endclipbetween-->C2").toList) =
      some (("AC1").toList) ∧
    processClip
        (("A<!--#clipbetween-->B<!--#endclipbetween-->C1<!--#endclipbetween-->C2").toList) ≠
      some (("AC1<!--#endclipbetween-->C2").toList) := by
  constructor
  · decide
  · decide

/-- Witness for C3 at a concrete input. -/
theorem clipBetween_excision_w :
    containsSub cbKw (("A").toList ++ (mkcw ++ (("B").toList ++ (mkecw ++ ("C").toList)))) = false ∧
    noMarkerStartB cwKw (mkcw ++ (("B").toList ++ (mkecw ++ ("C").toList))) (("A").toList) = true ∧
    splitFirstMarker cwKw (("B").toList ++ (mkecw ++ ("C").toList)) = none ∧
    noMarkerStartB ecwKw (mkecw ++ ("C").toList) (("B").toList) = true ∧
    splitFirstMarker ecwKw (("C").toList) = none ∧
    processClip (("A").toList ++ (mkcw ++ (("B").toList ++ (mkecw ++ ("C").toList)))) =
      some (("A").toList ++ ("C").toList) :=
  ⟨by decide, by decide, by decide, by decide, by decide,
    clipBetween_excision (("A").toList) (("B").toList) (("C").toList)
      (by decide) (by decide) (by decide) (by decide) (by decide)⟩

/-- C4: evaluation of the source at malformed clip inputs.  A
`ClipBetween` marker with no `EndClipBetween` yields the text before the
marker with the JavaScript string `undefined` appended — the content is
neither left unclipped nor accompanied by any reported condition (the
source has no condition-reporting mechanism at all).  A `ClipBefore`
marker with no `ClipAfter` keeps only the text after the marker, likewise
not the unclipped input. -/
theorem processClip_malformed_eval :
    processClip (("A<!--#clipbetween-->B").toList) = some (("Aundefined").toList) ∧
    processClip (("A<!--#clipbetween-->B").toList) ≠
      some (("A<!--#clipbetween-->B").toList) ∧
    processClip (("A<!--#clipbefore-->B").toList) = some (("B").toList) ∧
    processClip (("A<!--#clipbefore-->B").toList) ≠
      some (("A<!--#clipbefore-->B").toList) := by
  refine ⟨by decide, by decide, by decide, by decide⟩

theorem mem_upsertA (k : List Char) (v : FileObj) :
    ∀ (l : List (List Char × FileObj)) (x : List Char × FileObj),
      x ∈ upsertA k v l → x = (k, v) ∨ x ∈ l
  | [], x, h => by
    simp [upsertA] at h
    exact Or.inl h
  | kv :: rest, x, h => by
    unfold upsertA at h
    by_cases hk : kv.1 = k
    · rw [if_pos hk] at h
      rcases List.mem_cons.mp h with h1 | h1
      · exact Or.inl h1
      · exact Or.inr (List.mem_cons_of_mem _ h1)
    · rw [if_neg hk] at h
      rcases List.mem_cons.mp h with h1 | h1
      · exact Or.inr (h1 ▸ List.mem_cons_self _ _)
      · rcases mem_upsertA k v rest x h1 with h2 | h2
        · exact Or.inl h2
        · exact Or.inr (List.mem_cons_of_mem _ h2)

theorem mem_allRecords_configureFiles (f : FileObj) (st : RegState) (rec : FileObj)
    (h : rec ∈ allRecords (configureFiles f st)) : rec = f ∨ rec ∈ allRecords st := by
  unfold configureFiles at h
  by_cases h1 : f.name.head? = some '-'
  · rw [if_pos h1] at h
    unfold allRecords at h ⊢
    simp only [List.mem_append, List.mem_map] at h ⊢
    rcases h with (h2 | ⟨x, hx, hrec⟩) | h2
    · exact Or.inr (Or.inl (Or.inl h2))
    · rcases mem_upsertA f.path f _ x hx with h3 | h3
      · exact Or.inl (by rw [← hrec, h3])
      · exact Or.inr (Or.inl (Or.inr ⟨x, h3, hrec⟩))
    · exact Or.inr (Or.inr h2)
  · rw [if_neg h1] at h
    by_cases h2 : f.name.head? = some '_'
    · rw [if_pos h2] at h
      unfold allRecords at h ⊢
      simp only [List.mem_append, List.mem_map] at h ⊢
      rcases h with (h3 | h3) | ⟨x, hx, hrec⟩
      · exact Or.inr (Or.inl (Or.inl h3))
      · exact Or.inr (Or.inl (Or.inr h3))
      · rcases mem_upsertA f.path f _ x hx with h4 | h4
        · exact Or.inl (by rw [← hrec, h4])
        · exact Or.inr (Or.inr ⟨x, h4, hrec⟩)
    · rw [if_neg h2] at h
      unfold allRecords at h ⊢
      simp only [List.mem_append, List.mem_map] at h ⊢
      rcases h with ((h4 | h4) | h3) | h3
      · exact Or.inr (Or.inl (Or.inl h4))
      · exact Or.inl (List.mem_singleton.mp h4)
      · exact Or.inr (Or.inl (Or.inr h3))
      · exact Or.inr (Or.inr h3)

theorem registerFiles_trace :
    ∀ (files : List (List Char × List Char)) (st st' : RegState),
      registerFiles files st = some st' →
      ∀ rec ∈ allRecords st', rec ∈ allRecords st ∨
        ∃ pr ∈ files, rec.path = pr.1 ∧ processClip (trimChars pr.2) = some rec.content
  | [], st, st', h => by
    intro rec hrec
    simp only [registerFiles, Option.some.injEq] at h
    exact Or.inl (h ▸ hrec)
  | (p, c) :: rest, st, st', h => by
    intro rec hrec
    unfold registerFiles at h
    cases hh : hashFile (createFileObject p c) st with
    | none => rw [hh] at h; exact absurd h (by simp)
    | some st1 =>
      rw [hh] at h
      rcases registerFiles_trace rest st1 st' h rec hrec with h2 | ⟨pr, hpr, h3, h4⟩
      · unfold hashFile at hh
        cases hc : processClip (createFileObject p c).content with
        | none => rw [hc] at hh; exact absurd hh (by simp)
        | some cc =>
          rw [hc] at hh
          have hst1 : st1 = configureFiles { createFileObject p c with content := cc } st := by
            injection hh with hh1
            exact hh1.symm
          rcases mem_allRecords_configureFiles _ st rec (hst1 ▸ h2) with h3 | h3
          · refine Or.inr ⟨(p, c), List.mem_cons_self _ _, ?_, ?_⟩
            · rw [h3]
              rfl
            · rw [h3]
              exact hc
          · exact Or.inl h3
      · exact Or.inr ⟨pr, List.mem_cons_of_mem _ hpr, h3, h4⟩

/-- C5: for every record visible in any partition after running the
registration pipeline from a fresh registry, the stored content is the
result of applying clip processing exactly once to the trimmed raw text of
a registered source file — clipping happens at registration (inside
`hashFile`, before categorization) and is never applied a second time. -/
theorem registration_clips_once (files : List (List Char × List Char)) (st' : RegState)
    (h : registerFiles files emptyState = some st') :
    ∀ rec ∈ allRecords st',
      ∃ pr ∈ files, rec.path = pr.1 ∧ processClip (trimChars pr.2) = some rec.content := by
  intro rec hrec
  rcases registerFiles_trace files emptyState st' h rec hrec with h1 | h1
  · simp [allRecords, emptyState] at h1
  · exact h1

/-- Witness for C5 at a concrete input. -/
theorem registration_clips_once_w :
    registerFiles regDemoFiles emptyState = some regDemoSt ∧
    ∀ rec ∈ allRecords regDemoSt,
      ∃ pr ∈ regDemoFiles, rec.path = pr.1 ∧ processClip (trimChars pr.2) = some rec.content :=
  ⟨by decide, registration_clips_once regDemoFiles regDemoSt (by decide)⟩

/-- C8: after any sequence of registrations, `reset` leaves all three
category partitions empty, so no record registered before the reset is
visible afterwards. -/
theorem reset_clears_partitions (files : List (List Char × List Char)) (st st' : RegState)
    (_h : registerFiles files st = some st') :
    (reset st').pageFiles = [] ∧ (reset st').insertFiles = [] ∧
      (reset st').wrapFiles = [] ∧ ∀ rec : FileObj, rec ∉ allRecords (reset st') := by
  refine ⟨rfl, rfl, rfl, ?_⟩
  intro rec hrec
  simp [reset, allRecords] at hrec

/-- Witness for C8 at a concrete input. -/
theorem reset_clears_partitions_w :
    registerFiles regDemoFiles emptyState = some regDemoSt ∧
    ((reset regDemoSt).pageFiles = [] ∧ (reset regDemoSt).insertFiles = [] ∧
      (reset regDemoSt).wrapFiles = [] ∧ ∀ rec : FileObj, rec ∉ allRecords (reset regDemoSt)) :=
  ⟨by decide, reset_clears_partitions regDemoFiles emptyState regDemoSt (by decide)⟩

/-- C9: `loadDependencies` hashes exactly the discovered files whose base
filename starts with the insert marker `-` or the wrap marker `_`: it acts
as the registration loop restricted to the marker-named files, so a page
document is never registered by it. -/
theorem loadDependencies_markers_only (files : List (List Char × List Char)) (st : RegState) :
    loadDependencies files st =
      registerFiles (files.filter (fun pr => startsWithMarker (baseName pr.1))) st := by
  induction files generalizing st with
  | nil => rfl
  | cons f rest ih =>
    obtain ⟨p, c⟩ := f
    cases hmk : startsWithMarker (baseName p) with
    | false =>
      unfold loadDependencies
      rw [hmk]
      simp only [Bool.false_eq_true, if_false]
      rw [ih st]
      have hf : List.filter (fun pr => startsWithMarker (baseName pr.1)) ((p, c) :: rest) =
          List.filter (fun pr => startsWithMarker (baseName pr.1)) rest := by
        simp [List.filter, hmk]
      rw [hf]
    | true =>
      unfold loadDependencies
      rw [hmk]
      simp only [if_true]
      have hf : List.filter (fun pr => startsWithMarker (baseName pr.1)) ((p, c) :: rest) =
          (p, c) :: List.filter (fun pr => startsWithMarker (baseName pr.1)) rest := by
        simp [List.filter, hmk]
      rw [hf]
      unfold registerFiles
      cases hh : hashFile (createFileObject p c) st with
      | none => rfl
      | some st1 => exact ih st1

theorem pageInv_configureFiles (f : FileObj) (st : RegState)
    (hf : f.name = baseName f.path) (h : pageInv st) : pageInv (configureFiles f st) := by
  unfold configureFiles
  by_cases h1 : f.name.head? = some '-'
  · rw [if_pos h1]
    exact h
  · rw [if_neg h1]
    by_cases h2 : f.name.head? = some '_'
    · rw [if_pos h2]
      exact h
    · rw [if_neg h2]
      intro g hg
      rcases List.mem_append.mp hg with h3 | h3
      · exact h g h3
      · have hgf : g = f := List.mem_singleton.mp h3
        subst hgf
        refine ⟨hf, ?_⟩
        simp [startsWithMarker, h1, h2]

theorem pageInv_registerFiles :
    ∀ (files : List (List Char × List Char)) (st st' : RegState),
      registerFiles files st = some st' → pageInv st → pageInv st'
  | [], st, st', h, hinv => by
    simp only [registerFiles, Option.some.injEq] at h
    exact h ▸ hinv
  | (p, c) :: rest, st, st', h, hinv => by
    unfold registerFiles at h
    cases hh : hashFile (createFileObject p c) st with
    | none => rw [hh] at h; exact absurd h (by simp)
    | some st1 =>
      rw [hh] at h
      refine pageInv_registerFiles rest st1 st' h ?_
      unfold hashFile at hh
      cases hc : processClip (createFileObject p c).content with
      | none => rw [hc] at hh; exact absurd hh (by simp)
      | some cc =>
        rw [hc] at hh
        injection hh with hh1
        rw [← hh1]
        exact pageInv_configureFiles _ st rfl hinv

/-- C10: the results returned by `processDirectory` and the files it
writes to the destination come only from the page partition: a discovered
file whose base filename carries the insert marker `-` or the wrap marker
`_` contributes no result entry and no destination write. -/
theorem processDirectory_pages_only (srcDir d : List Char)
    (files : List (List Char × List Char)) (tree : Json) (limit : Nat)
    (res : List PageResult × List WriteRec) (p c : List Char)
    (hrun : processDirectory srcDir (some d) files tree limit emptyState = some res)
    (_hmem : (p, c) ∈ files)
    (hmark : startsWithMarker (baseName p) = true) :
    (∀ r ∈ res.1, r.path ≠ p) ∧ (∀ w ∈ res.2, w.src ≠ p) := by
  unfold processDirectory at hrun
  cases hreg : registerFiles files emptyState with
  | none => rw [hreg] at hrun; exact absurd hrun (by simp)
  | some st =>
    rw [hreg] at hrun
    have hinv : pageInv st := by
      refine pageInv_registerFiles files emptyState st hreg ?_
      intro g hg
      simp [emptyState] at hg
    have hpage : ∀ f ∈ st.pageFiles, f.path ≠ p := by
      intro f hf hfp
      obtain ⟨hname, hmk⟩ := hinv f hf
      rw [hname, hfp, hmark] at hmk
      exact absurd hmk (by simp)
    simp only [Option.some.injEq] at hrun
    subst hrun
    constructor
    · intro r hr
      simp only [List.mem_map] at hr
      obtain ⟨f, hf, hfr⟩ := hr
      rw [← hfr]
      exact hpage f hf
    · intro w hw
      simp only [List.mem_map] at hw
      obtain ⟨f, hf, hfw⟩ := hw
      rw [← hfw]
      exact hpage f hf

/-- Witness for C10 at a concrete input. -/
theorem processDirectory_pages_only_w :
    processDirectory (("s").toList) (some (("d").toList)) dirDemoFiles Json.null 3 emptyState =
      some dirDemoRes ∧
    (("s/-f.html").toList, ("frag").toList) ∈ dirDemoFiles ∧
    startsWithMarker (baseName (("s/-f.html").toList)) = true ∧
    ((∀ r ∈ dirDemoRes.1, r.path ≠ ("s/-f.html").toList) ∧
      ∀ w ∈ dirDemoRes.2, w.src ≠ ("s/-f.html").toList) :=
  ⟨by decide, by decide, by decide,
    processDirectory_pages_only (("s").toList) (("d").toList) dirDemoFiles Json.null 3
      dirDemoRes (("s/-f.html").toList) (("frag").toList) (by decide) (by decide) (by decide)⟩

theorem parseDirective_none_of_no_opener (reg : List (List Char × List Char)) (tree : Json)
    (s : List Char) (h : opener.isPrefixOf s = false) :
    parseDirective reg tree s = none := by
  have hins : parseInsertTag reg s = none := by
    unfold parseInsertTag matchLit
    rw [h]
    rfl
  have hdat : parseDataTag tree s = none := by
    unfold parseDataTag matchLit
    rw [h]
    rfl
  unfold parseDirective
  rw [hins, hdat]

theorem hasTag_false_of_no_opener (reg : List (List Char × List Char)) (tree : Json) :
    ∀ s : List Char, containsSub opener s = false → hasTag reg tree s = false
  | [], _ => rfl
  | c :: rest, h => by
    obtain ⟨h1, h2⟩ := not_contains_cons opener c rest h
    show ((parseDirective reg tree (c :: rest)).isSome || hasTag reg tree rest) = false
    rw [parseDirective_none_of_no_opener reg tree _ h1,
      hasTag_false_of_no_opener reg tree rest h2]
    rfl

theorem runEngine_stable (reg : List (List Char × List Char)) (tree : Json) (n : Nat)
    (s : List Char) (h : hasTag reg tree s = false) :
    runEngine reg tree n s = (s, 0, false) := by
  cases n with
  | zero => simp [runEngine, h]
  | succ m => simp [runEngine, h]

/-- C1 (amended): `processContent` on an input whose trimmed form contains
no directive opener returns the input trimmed of its leading and trailing
whitespace (`createFileObject` trims the content before the engine sees
it); the input is returned exactly only when it carries no surrounding
whitespace. -/
theorem processContent_trims_directive_free (content basePath : List Char)
    (st : RegState) (tree : Json) (limit : Nat)
    (h : containsSub opener (trimChars content) = false) :
    processContent content basePath st tree limit = trimChars content := by
  show (runEngine (insertContents st) tree limit (trimChars content)).1 = trimChars content
  rw [runEngine_stable _ _ _ _ (hasTag_false_of_no_opener _ _ _ h)]

/-- C1 counterexample: the directive-free input ` x` (leading space) is
not returned unchanged — `processContent` returns its trimmed form `x`. -/
theorem processContent_identity_cex :
    containsSub opener ([' ', 'x']) = false ∧
    processContent [' ', 'x'] (("b").toList) emptyState Json.null 5 ≠ [' ', 'x'] ∧
    processContent [' ', 'x'] (("b").toList) emptyState Json.null 5 = ['x'] := by
  refine ⟨by decide, by decide, by decide⟩

/-- Witness for C1 at a concrete input. -/
theorem processContent_trims_directive_free_w :
    containsSub opener (trimChars (("hello").toList)) = false ∧
    processContent (("hello").toList) (("b").toList) emptyState Json.null 5 =
      trimChars (("hello").toList) :=
  ⟨by decide,
    processContent_trims_directive_free (("hello").toList) (("b").toList) emptyState
      Json.null 5 (by decide)⟩

theorem opener_isPrefixOf_false_of_head_ne (c : Char) (t : List Char) (h : ¬ c = '<') :
    opener.isPrefixOf (c :: t) = false := by
  have ho : opener = '<' :: ('!' :: ('-' :: ('-' :: ('#' :: [])))) := by decide
  rw [ho]
  show (('<' == c) && (('!' :: ('-' :: ('-' :: ('#' :: [])))).isPrefixOf t)) = false
  have hb : ('<' == c) = false := beq_eq_false_iff_ne.mpr (fun he => h he.symm)
  rw [hb, Bool.false_and]

theorem parseDirective_none_of_head_ne (reg : List (List Char × List Char)) (tree : Json)
    (c : Char) (t : List Char) (h : ¬ c = '<') :
    parseDirective reg tree (c :: t) = none :=
  parseDirective_none_of_no_opener reg tree _ (opener_isPrefixOf_false_of_head_ne c t h)

theorem matchLit_append_self (pat t : List Char) : matchLit pat (pat ++ t) = some t := by
  unfold matchLit
  rw [isPrefixOf_append_self, drop_append_self]
  simp

theorem dropWs_not_ws (c : Char) (z : List Char) (h : isWsChar c = false) :
    dropWs (c :: z) = c :: z := by
  simp [dropWs, h]

theorem dropWs_ws (c : Char) (z : List Char) (h : isWsChar c = true) :
    dropWs (c :: z) = dropWs z := by
  simp [dropWs, h]

theorem readUntilQuote_append :
    ∀ (p z : List Char), ('"' : Char) ∉ p → readUntilQuote (p ++ ('"' :: z)) = some (p, z)
  | [], z, _ => by simp [readUntilQuote]
  | c :: p, z, h => by
    simp only [List.mem_cons, not_or] at h
    obtain ⟨h1, h2⟩ := h
    rw [List.cons_append]
    show (if c = '"' then some ([], p ++ ('"' :: z)) else
      match readUntilQuote (p ++ ('"' :: z)) with
      | some pr => some (c :: pr.1, pr.2)
      | none => none) = some (c :: p, z)
    rw [if_neg (fun he => h1 he.symm), readUntilQuote_append p z h2]

/-- The fully right-nested spelling of an Insert tag followed by `t`. -/
theorem tagInsert_shape (p t : List Char) :
    tagInsert p ++ t =
      opener ++ (("insert").toList ++ (' ' :: (("path=").toList ++
        ('"' :: (p ++ ('"' :: (' ' :: (arrowLit ++ t)))))))) := by
  simp [tagInsert, List.append_assoc]

theorem parseInsertTag_at_tag (reg : List (List Char × List Char)) (p t : List Char)
    (hp : ('"' : Char) ∉ p) :
    parseInsertTag reg (tagInsert p ++ t) = some ((lookupA reg p).getD [], t) := by
  have hpa : ("path=").toList = 'p' :: ("ath=").toList := by decide
  have h3 : skipWs1 (' ' :: (("path=").toList ++ ('"' :: (p ++ ('"' :: (' ' ::
      (arrowLit ++ t))))))) = some (("path=").toList ++ ('"' :: (p ++ ('"' :: (' ' ::
      (arrowLit ++ t)))))) := by
    show (if isWsChar ' ' then some (dropWs (("path=").toList ++ ('"' :: (p ++ ('"' :: (' ' ::
      (arrowLit ++ t))))))) else none) = _
    have hws : isWsChar ' ' = true := rfl
    rw [if_pos hws]
    rw [hpa, List.cons_append, dropWs_not_ws _ _ (rfl : isWsChar 'p' = false),
      ← List.cons_append, ← hpa]
  have h5 : matchLit (['"']) ('"' :: (p ++ ('"' :: (' ' :: (arrowLit ++ t))))) =
      some (p ++ ('"' :: (' ' :: (arrowLit ++ t)))) :=
    matchLit_append_self (['"']) _
  have h6 : readUntilQuote (p ++ ('"' :: (' ' :: (arrowLit ++ t)))) =
      some (p, ' ' :: (arrowLit ++ t)) :=
    readUntilQuote_append p _ hp
  have h7 : matchLit arrowLit (dropWs (' ' :: (arrowLit ++ t))) = some t := by
    rw [dropWs_ws _ _ (rfl : isWsChar ' ' = true)]
    have ha : arrowLit ++ t = '-' :: (('-' :: ('>' :: [])) ++ t) := by simp [arrowLit]
    rw [ha, dropWs_not_ws _ _ (rfl : isWsChar '-' = false), ← ha]
    exact matchLit_append_self arrowLit t
  rw [tagInsert_shape]
  unfold parseInsertTag
  simp only [matchLit_append_self, h3, h5, h6, h7]

theorem parseDirective_at_tag (reg : List (List Char × List Char)) (tree : Json)
    (p t : List Char) (hp : ('"' : Char) ∉ p) :
    parseDirective reg tree (tagInsert p ++ t) = some ((lookupA reg p).getD [], t) := by
  unfold parseDirective
  rw [parseInsertTag_at_tag reg p t hp]

theorem tagInsert_length_pos (p : List Char) : 1 ≤ (tagInsert p).length := by
  have h5 : opener.length = 5 := by decide
  simp [tagInsert, List.length_append, h5]
  omega

theorem hasTag_at_tag (reg : List (List Char × List Char)) (tree : Json) (p t : List Char)
    (hp : ('"' : Char) ∉ p) : hasTag reg tree (tagInsert p ++ t) = true := by
  rcases hsh : tagInsert p ++ t with _ | ⟨c, rest⟩
  · have hlen := congrArg List.length hsh
    simp only [List.length_append, List.length_nil] at hlen
    have := tagInsert_length_pos p
    omega
  · show ((parseDirective reg tree (c :: rest)).isSome || hasTag reg tree rest) = true
    rw [← hsh, parseDirective_at_tag reg tree p t hp]
    rfl

theorem hasTag_append_clean (reg : List (List Char × List Char)) (tree : Json) :
    ∀ (w z : List Char), ('<' : Char) ∉ w → hasTag reg tree (w ++ z) = hasTag reg tree z
  | [], z, _ => by rw [List.nil_append]
  | c :: w, z, h => by
    simp only [List.mem_cons, not_or] at h
    obtain ⟨h1, h2⟩ := h
    rw [List.cons_append]
    show ((parseDirective reg tree (c :: (w ++ z))).isSome || hasTag reg tree (w ++ z)) =
      hasTag reg tree z
    rw [parseDirective_none_of_head_ne reg tree c _ (fun he => h1 he.symm),
      hasTag_append_clean reg tree w z h2]
    rfl

theorem passSubFuel_congr (reg : List (List Char × List Char)) (tree : Json) :
    ∀ (f1 : Nat) (s : List Char) (f2 : Nat), s.length ≤ f1 → s.length ≤ f2 →
      passSubFuel reg tree f1 s = passSubFuel reg tree f2 s
  | 0, s, f2, h1, _ => by
    have hs : s = [] := List.length_eq_zero.mp (Nat.le_zero.mp h1)
    subst hs
    cases f2 <;> rfl
  | Nat.succ f1, s, f2, h1, h2 => by
    cases s with
    | nil => cases f2 <;> rfl
    | cons c rest =>
      cases f2 with
      | zero => simp at h2
      | succ f2 =>
        show (match parseDirective reg tree (c :: rest) with
          | some pr => pr.1 ++ passSubFuel reg tree f1
              ((c :: rest).drop (max ((c :: rest).length - pr.2.length) 1))
          | none => c :: passSubFuel reg tree f1 rest) =
          (match parseDirective reg tree (c :: rest) with
          | some pr => pr.1 ++ passSubFuel reg tree f2
              ((c :: rest).drop (max ((c :: rest).length - pr.2.length) 1))
          | none => c :: passSubFuel reg tree f2 rest)
        have hl1 : rest.length + 1 ≤ f1 + 1 := by simpa using h1
        have hl2 : rest.length + 1 ≤ f2 + 1 := by simpa using h2
        cases hpd : parseDirective reg tree (c :: rest) with
        | none =>
          show c :: passSubFuel reg tree f1 rest = c :: passSubFuel reg tree f2 rest
          rw [passSubFuel_congr reg tree f1 rest f2 (by omega) (by omega)]
        | some pr =>
          show pr.1 ++ passSubFuel reg tree f1
              ((c :: rest).drop (max ((c :: rest).length - pr.2.length) 1)) =
            pr.1 ++ passSubFuel reg tree f2
              ((c :: rest).drop (max ((c :: rest).length - pr.2.length) 1))
          have hd : ((c :: rest).drop (max ((c :: rest).length - pr.2.length) 1)).length ≤
              rest.length := by
            rw [List.length_drop, List.length_cons]
            omega
          rw [passSubFuel_congr reg tree f1 _ f2 (by omega) (by omega)]

theorem passSub_cons_none (reg : List (List Char × List Char)) (tree : Json)
    (c : Char) (s : List Char) (h : parseDirective reg tree (c :: s) = none) :
    passSub reg tree (c :: s) = c :: passSub reg tree s := by
  show (match parseDirective reg tree (c :: s) with
    | some pr => pr.1 ++ passSubFuel reg tree s.length
        ((c :: s).drop (max ((c :: s).length - pr.2.length) 1))
    | none => c :: passSubFuel reg tree s.length s) = c :: passSub reg tree s
  rw [h]
  rfl

theorem passSub_append_clean (reg : List (List Char × List Char)) (tree : Json) :
    ∀ (w z : List Char), ('<' : Char) ∉ w → passSub reg tree (w ++ z) = w ++ passSub reg tree z
  | [], z, _ => by rw [List.nil_append, List.nil_append]
  | c :: w, z, h => by
    simp only [List.mem_cons, not_or] at h
    obtain ⟨h1, h2⟩ := h
    rw [List.cons_append,
      passSub_cons_none reg tree c _ (parseDirective_none_of_head_ne reg tree c _
        (fun he => h1 he.symm)),
      passSub_append_clean reg tree w z h2, List.cons_append]

theorem passSub_at_tag (reg : List (List Char × List Char)) (tree : Json) (p v : List Char)
    (hp : ('"' : Char) ∉ p) :
    passSub reg tree (tagInsert p ++ v) = ((lookupA reg p).getD []) ++ passSub reg tree v := by
  rcases hsh : tagInsert p ++ v with _ | ⟨c, rest⟩
  · have hlen := congrArg List.length hsh
    simp only [List.length_append, List.length_nil] at hlen
    have := tagInsert_length_pos p
    omega
  · have hlen := congrArg List.length hsh
    rw [List.length_append, List.length_cons] at hlen
    have hpos := tagInsert_length_pos p
    have hpd : parseDirective reg tree (c :: rest) = some ((lookupA reg p).getD [], v) := by
      rw [← hsh]
      exact parseDirective_at_tag reg tree p v hp
    show passSub reg tree (c :: rest) = (lookupA reg p).getD [] ++ passSub reg tree v
    have hgoal : passSub reg tree (c :: rest) =
        ((lookupA reg p).getD []) ++ passSubFuel reg tree rest.length
          ((c :: rest).drop (max ((c :: rest).length - v.length) 1)) := by
      show (match parseDirective reg tree (c :: rest) with
        | some pr => pr.1 ++ passSubFuel reg tree rest.length
            ((c :: rest).drop (max ((c :: rest).length - pr.2.length) 1))
        | none => c :: passSubFuel reg tree rest.length rest) = _
      rw [hpd]
    rw [hgoal]
    have hdrop : (c :: rest).drop (max ((c :: rest).length - v.length) 1) = v := by
      rw [← hsh]
      have hmax : max ((tagInsert p ++ v).length - v.length) 1 = (tagInsert p).length := by
        rw [List.length_append]
        omega
      rw [hmax, drop_append_self]
    rw [hdrop]
    rw [passSubFuel_congr reg tree rest.length v v.length (by omega) (Nat.le_refl _)]
    rfl

theorem runEngine_unresolved (reg : List (List Char × List Char)) (tree : Json)
    (P : List Char → Prop)
    (hTag : ∀ s, P s → hasTag reg tree s = true)
    (hStep : ∀ s, P s → P (passSub reg tree s)) :
    ∀ (n : Nat) (s : List Char), P s →
      (runEngine reg tree n s).2.1 ≤ n ∧ (runEngine reg tree n s).2.2 = true
  | 0, s, hs => ⟨Nat.le_refl 0, hTag s hs⟩
  | Nat.succ n, s, hs => by
    have ih := runEngine_unresolved reg tree P hTag hStep n (passSub reg tree s) (hStep s hs)
    have hstep : runEngine reg tree (Nat.succ n) s =
        ((runEngine reg tree n (passSub reg tree s)).1,
          (runEngine reg tree n (passSub reg tree s)).2.1 + 1,
          (runEngine reg tree n (passSub reg tree s)).2.2) := by
      show (if hasTag reg tree s = true then
          let r := runEngine reg tree n (passSub reg tree s)
          (r.1, r.2.1 + 1, r.2.2)
        else (s, 0, false)) = _
      rw [hTag s hs]
      simp
    rw [hstep]
    exact ⟨Nat.succ_le_succ ih.1, ih.2⟩

/-- C6: for every pair of registered fragments that insert each other —
fragment `pA` has content `uA ++ tagInsert pB ++ vA` and fragment `pB` has
content `uB ++ tagInsert pA ++ vB`, with the text before each tag free of
the tag-opening character `<` and the paths free of `"` so the tags parse —
the engine run with iteration limit `n` on any host text
`u ++ tagInsert p ++ v` whose tag names one of the pair performs at most
`n` passes (the function is total, so it terminates) and returns the
partially-resolved text together with the unresolved-directive condition
flag, for every limit `n`, every registry containing the pair, and every
data tree. -/
theorem cyclic_insert_bounded (reg : List (List Char × List Char)) (tree : Json)
    (pA pB uA vA uB vB u v p : List Char) (n : Nat)
    (hA : lookupA reg pA = some (uA ++ (tagInsert pB ++ vA)))
    (hB : lookupA reg pB = some (uB ++ (tagInsert pA ++ vB)))
    (huA : ('<' : Char) ∉ uA) (huB : ('<' : Char) ∉ uB)
    (hqA : ('"' : Char) ∉ pA) (hqB : ('"' : Char) ∉ pB)
    (hu : ('<' : Char) ∉ u) (hp : p = pA ∨ p = pB) :
    (runEngine reg tree n (u ++ (tagInsert p ++ v))).2.1 ≤ n ∧
      (runEngine reg tree n (u ++ (tagInsert p ++ v))).2.2 = true := by
  have hq : ∀ q : List Char, q = pA ∨ q = pB → ('"' : Char) ∉ q := by
    rintro q (rfl | rfl) <;> assumption
  refine runEngine_unresolved reg tree
    (fun s => ∃ w q z, (('<' : Char) ∉ w) ∧ (q = pA ∨ q = pB) ∧
      s = w ++ (tagInsert q ++ z)) ?_ ?_ n _ ⟨u, p, v, hu, hp, rfl⟩
  · rintro s ⟨w, q, z, hw, hqor, rfl⟩
    rw [hasTag_append_clean reg tree w _ hw]
    exact hasTag_at_tag reg tree q z (hq q hqor)
  · rintro s ⟨w, q, z, hw, hqor, rfl⟩
    rw [passSub_append_clean reg tree w _ hw, passSub_at_tag reg tree q z (hq q hqor)]
    rcases hqor with rfl | rfl
    · refine ⟨w ++ uA, pB, vA ++ passSub reg tree z, ?_, Or.inr rfl, ?_⟩
      · intro hmem
        rcases List.mem_append.mp hmem with hm | hm
        · exact hw hm
        · exact huA hm
      · rw [hA]
        simp [List.append_assoc]
    · refine ⟨w ++ uB, pA, vB ++ passSub reg tree z, ?_, Or.inl rfl, ?_⟩
      · intro hmem
        rcases List.mem_append.mp hmem with hm | hm
        · exact hw hm
        · exact huB hm
      · rw [hB]
        simp [List.append_assoc]

/-- Witness for C6 at a concrete input (the two-fragment registry
`cycleReg`, starting from fragment `A`'s content, limit 4). -/
theorem cyclic_insert_bounded_w :
    lookupA cycleReg (['A']) = some ([] ++ (tagInsert (['B']) ++ [])) ∧
    lookupA cycleReg (['B']) = some ([] ++ (tagInsert (['A']) ++ [])) ∧
    (('<' : Char) ∉ ([] : List Char)) ∧
    (('"' : Char) ∉ (['A'] : List Char)) ∧
    (('"' : Char) ∉ (['B'] : List Char)) ∧
    ((['B'] : List Char) = ['A'] ∨ (['B'] : List Char) = ['B']) ∧
    ((runEngine cycleReg Json.null 4 ([] ++ (tagInsert (['B']) ++ []))).2.1 ≤ 4 ∧
      (runEngine cycleReg Json.null 4 ([] ++ (tagInsert (['B']) ++ []))).2.2 = true) :=
  ⟨by decide, by decide, by decide, by decide, by decide, by decide,
    cyclic_insert_bounded cycleReg Json.null (['A']) (['B']) [] [] [] [] [] [] (['B']) 4
      (by decide) (by decide) (by decide) (by decide) (by decide) (by decide) (by decide)
      (by decide)⟩

/-- C7: for every path absent from the data tree (witnessed by the descent
returning nothing), `resolve` returns the supplied default, and returns
the empty string when no default is given; `resolve` is a total function,
so a missing path never raises an error. -/
theorem resolve_absent_default (T : Json) (P : List Char) (D : Json)
    (h : (resolveSegs T (splitDots P)).isSome = false) :
    resolve T P (some D) = D ∧ resolve T P none = Json.str [] := by
  unfold resolve
  cases hr : resolveSegs T (splitDots P) with
  | none => exact ⟨rfl, rfl⟩
  | some v => rw [hr] at h; exact absurd h (by simp)

/-- Witness for C7 at a concrete input. -/
theorem resolve_absent_default_w :
    (resolveSegs demoTree (splitDots ['b'])).isSome = false ∧
    (resolve demoTree ['b'] (some (Json.str ['x'])) = Json.str ['x'] ∧
      resolve demoTree ['b'] none = Json.str []) :=
  ⟨rfl, resolve_absent_default demoTree ['b'] (Json.str ['x']) rfl⟩

end HtmlIncluder
